import Mathlib

/-!
Shallow embedding of `fbtrie.py`: a character trie with a branch-and-bound
fuzzy (Levenshtein) search, and the two-phase Forward/Backward decomposition
(`FBTrie`).  Words are `List Char`; the reserved terminator symbol is the
NUL character, exactly as in the source (`word + "\0"`).

The mutable DP table `tab` of the source is threaded functionally: at depth
`i` the walk only ever reads row `i - 1` (written by the parent step) and the
cells of row `i` it has just written, so the recursion carries the previous
row `prev` and recomputes the next row from it, which reproduces the source's
reads and writes exactly.
-/

/-- The reserved terminator symbol, `"\0"` in the source. -/
def term : Char := Char.ofNat 0

/-- A trie node: the Python `dict` mapping symbols to child nodes, kept in
insertion order as an association list. -/
inductive Node : Type where
  | mk (children : List (Char × Node)) : Node

/-- The children of a node. -/
def Node.children : Node → List (Char × Node)
  | .mk cs => cs

theorem Node.sizeOf_child_lt {c : Char} {t : Node} {cs : List (Char × Node)}
    (h : (c, t) ∈ cs) : sizeOf t < sizeOf (Node.mk cs) := by
  have h1 := List.sizeOf_lt_of_mem h
  simp [Node.mk.sizeOf_spec]
  simp [Prod.mk.sizeOf_spec] at h1
  omega

/-- Update (or create, appended at the end, as Python `dict` insertion does)
the child at symbol `c`, applying `f` to the existing child or to a fresh
empty node. -/
def updateChild (f : Node → Node) : List (Char × Node) → Char → List (Char × Node)
  | [], c => [(c, f (Node.mk []))]
  | (c', t) :: cs, c => if c = c' then (c', f t) :: cs else (c', t) :: updateChild f cs c

/-- The insertion walk of `Trie.insert`: for each symbol of the (already
terminator-extended) word, step into the child, creating it if absent. -/
def insertWalk : List Char → Node → Node
  | [], node => node
  | c :: rest, Node.mk cs => Node.mk (updateChild (insertWalk rest) cs c)

namespace Trie

/-- Source `Trie.insert`: appends the terminator and walks the word into the trie. -/
def insert (root : Node) (w : List Char) : Node :=
  insertWalk (w ++ [term]) root

end Trie

/-- Build a trie from a dictionary by successive `Trie.insert` calls. -/
def buildTrie (ws : List (List Char)) : Node :=
  ws.foldl Trie.insert (Node.mk [])

namespace Trie

/-- Source `Trie.traverse`: depth-first enumeration of every terminated word below
`node`, each paired with the externally supplied distance `d`. -/
def traverse (d : Nat) : Node → List Char → List (List Char × Nat)
  | Node.mk cs, sofar =>
    (cs.attach.map (fun x =>
      if x.1.1 = term then [(sofar, d)]
      else traverse d x.1.2 (sofar ++ [x.1.1]))).flatten
termination_by n _ => sizeOf n
decreasing_by
  obtain ⟨⟨c, t⟩, hx⟩ := x
  exact Node.sizeOf_child_lt hx

end Trie

/-- A `tab[i-1][j]`-style read of a DP row (out-of-range reads default to `0`;
a separate checked embedding shows they never happen). -/
def rowIdx (row : List Nat) (j : Nat) : Nat := row.getD j 0

/-- The inner `for j in range(1, len(tab[i]))` loop of the source: walks the
query symbols in step with adjacent cells of the previous row, threading the
freshly written cell (`delete = tab[i][j-1] + 1`) on the left. -/
def rowFrom (c : Char) : List Char → List Nat → Nat → List Nat
  | [], _, _ => []
  | qc :: qs, p0 :: p1 :: ps, left =>
      let cost : Nat := if c = qc then 0 else 1
      let v := min (p0 + cost) (min (p1 + 1) (left + 1))
      v :: rowFrom c qs (p1 :: ps) v
  | _ :: _, _, _ => []

/-- Row `i` of the DP table, computed from row `i - 1` after taking trie
edge `c`: `tab[i][0] = i`, then the classic recurrence for `j = 1..n`. -/
def levRow (c : Char) (q : List Char) (prev : List Nat) (i : Nat) : List Nat :=
  i :: rowFrom c q prev i

/-- Python's `min` over a (nonempty) row. -/
def listMin : List Nat → Nat
  | [] => 0
  | x :: xs => xs.foldl min x

/-- Source `Trie.fuzzy_`: the recursive bounded search.  `kf` is `k_fn`, `pre` is
the `prefix` flag, `i` the current depth, `prev` row `i - 1` of the DP
table.  The source's depth cutoff `if i >= len(tab): return` is carried by
`fuel`, the number of DP-table rows still unused: the walk starts with
`fuel = len(tab) - 1` at depth `i = 1` and each step consumes one unit, so
`fuel = 0` holds exactly when `i ≥ len(tab)` and returns `[]` exactly as
the source does.  The `for c, child in node.items()` loop appends each
child's contribution in order. -/
def fuzzyGo (kf : Nat → Nat) (q : List Char) (pre : Bool) :
    Nat → Node → Nat → List Char → List Nat → List (List Char × Nat)
  | fuel, node, i, sofar, prev =>
    let k := kf i
    if pre = true ∧ q.length + 1 ≤ i then
      let d := rowIdx prev q.length
      if d ≤ k then Trie.traverse d node sofar else []
    else
      match fuel with
      | 0 => []
      | fuel + 1 =>
        (node.children.map (fun x =>
          let c := x.1
          let d := rowIdx prev q.length
          if c = term ∧ d ≤ k then [(sofar, d)]
          else
            let row := levRow c q prev i
            if listMin row ≤ k then
              fuzzyGo kf q pre fuel x.2 (i + 1) (sofar ++ [c]) row
            else [])).flatten

/-- Source `Trie.fuzzy`: sets up the DP table of `n + k + 1` rows (row 0 is
`0..n`) and dispatches the walk at depth 1 (hence with `n + k` rows of
remaining capacity) with the constant budget unless a `k_fn` is given. -/
def Trie.fuzzy (root : Node) (query : List Char) (k : Nat)
    (kf : Option (Nat → Nat) := none) (pre : Bool := false) :
    List (List Char × Nat) :=
  let n := query.length
  let kf' := kf.getD (fun _ => k)
  fuzzyGo kf' query pre (n + k) root 1 [] (List.range (n + 1))

/-! ## The Forward/Backward trie -/

/-- Insert a pair into a list of children sorted by symbol (the comparison
key of `sorted(node.items(), key=lambda x: x[0])`). -/
def insChild (p : Char × Node) : List (Char × Node) → List (Char × Node)
  | [] => [p]
  | x :: xs => if p.1 ≤ x.1 then p :: x :: xs else x :: insChild p xs

/-- Python `sorted(node.items(), key=lambda x: x[0])`: children in symbol order. -/
def sortChildren : List (Char × Node) → List (Char × Node)
  | [] => []
  | x :: xs => insChild x (sortChildren xs)

/-- Source `FBTrie.trie_fuzzy_`: the per-trie search of the FB decomposition.
`k` is the full budget, `subk` the budget currently in force (possibly
`-1`, from Python floor division), `subq` the half-query target, `phase`
the phase flag.  Children are visited in sorted order.  As in `fuzzyGo`,
the depth cutoff `if i >= len(tab): return` is carried by `fuel`
(= `len(tab) - i` remaining row capacity, `0` exactly when `i ≥ len(tab)`). -/
def fbGo (k : Int) (subq q : List Char) :
    Nat → Int → Node → Nat → List Char → List Nat → Nat → List (List Char × Nat)
  | 0, _, _, _, _, _, _ => []
  | fuel + 1, subk, node, i, sofar, prev, phase =>
    ((sortChildren node.children).map (fun x =>
      let c := x.1
      let d := rowIdx prev q.length
      if c = term ∧ (d : Int) ≤ k then [(sofar, d)]
      else
        let row := levRow c q prev i
        if phase = 1 ∧ ((rowIdx row subq.length : Nat) : Int) ≤ subk then
          fbGo k subq q fuel k x.2 (i + 1) (sofar ++ [c]) row 2
        else if ((listMin row : Nat) : Int) ≤ subk then
          fbGo k subq q fuel subk x.2 (i + 1) (sofar ++ [c]) row phase
        else [])).flatten

/-- Source `FBTrie.trie_fuzzy`: table setup (`n + k + 1` rows) and dispatch at
depth 1 (so `n + k` rows of remaining capacity), phase 1. -/
def trieFuzzy (root : Node) (subk : Int) (k : Nat) (subq q : List Char) :
    List (List Char × Nat) :=
  let n := q.length
  fbGo (k : Int) subq q (n + k) subk root 1 [] (List.range (n + 1)) 1

/-- Phase A's half budget `k1 = (k - 1) // 2` (Python floor division). -/
def fbK1 (k : Nat) : Int := ((k : Int) - 1).fdiv 2

/-- Phase B's half budget `k2 = k // 2`. -/
def fbK2 (k : Nat) : Int := (k : Int).fdiv 2

/-- The FB-trie: a forward trie and a backward trie. -/
structure FBTrie : Type where
  f : Node
  b : Node

/-- Source `FBTrie()`: two empty tries. -/
def FBTrie.empty : FBTrie := ⟨Node.mk [], Node.mk []⟩

/-- Source `FBTrie.insert`: the word goes into `f`, its reversal into `b`. -/
def FBTrie.insert (t : FBTrie) (w : List Char) : FBTrie :=
  ⟨Trie.insert t.f w, Trie.insert t.b w.reverse⟩

/-- Build an FB-trie from a dictionary by successive inserts. -/
def buildFB (ws : List (List Char)) : FBTrie :=
  ws.foldl FBTrie.insert FBTrie.empty

/-- Source `FBTrie.fuzzy`: phase A on the forward trie with half budget `k1`
against `q1 = query[:n//2]`, then phase B on the backward trie with half
budget `k2` against the reversed `q2 = query[n//2:]` and the reversed
query, re-reversing the yielded words. -/
def FBTrie.fuzzy (t : FBTrie) (query : List Char) (k : Nat) :
    List (List Char × Nat) :=
  let n := query.length
  let q1 := query.take (n / 2)
  let q2 := query.drop (n / 2)
  trieFuzzy t.f (fbK1 k) k q1 query ++
    (trieFuzzy t.b (fbK2 k) k q2.reverse query.reverse).map
      (fun p => (p.1.reverse, p.2))

/-! ## Reference Levenshtein distance -/

/-- Symbol list of a string literal. -/
def chars (s : String) : List Char := s.data

/-- Helper for `lev`: given `f = lev xs`, computes `lev (x :: xs)` by
structural recursion on the second word, so that the whole definition is
structurally recursive and evaluates by kernel reduction. -/
def levAux (f : List Char → Nat) (x : Char) : List Char → Nat
  | [] => f [] + 1
  | y :: ys =>
      min (f ys + (if x = y then 0 else 1))
        (min (f (y :: ys) + 1) (levAux f x ys + 1))

/-- Levenshtein distance by the textbook recurrence: distance to the empty
word is the length of the other word, and on two nonempty words it is the
minimum of the substitution, insertion and deletion alternatives. -/
def lev : List Char → List Char → Nat
  | [], ys => ys.length
  | x :: xs, ys => levAux (lev xs) x ys

@[simp] theorem lev_nil_left (ys : List Char) : lev [] ys = ys.length := rfl

@[simp] theorem lev_nil_right (xs : List Char) : lev xs [] = xs.length := by
  induction xs with
  | nil => rfl
  | cons x xs ih => simp [lev, levAux, ih]

theorem lev_cons (x y : Char) (xs ys : List Char) :
    lev (x :: xs) (y :: ys) =
      min (lev xs ys + (if x = y then 0 else 1))
        (min (lev xs (y :: ys) + 1) (lev (x :: xs) ys + 1)) := rfl

/-- Arithmetic core of the two ways of unfolding a 2x2 block of the
Levenshtein recurrence: both are the minimum of the same nine sums. -/
theorem minShuffle (x1 x2 x3 x4 x5 x6 x7 x8 x9 c1 c2 : Nat) :
    min (min (x1 + c2) (min (x2 + 1) (x3 + 1)) + c1)
      (min (min (x4 + c2) (min (x5 + 1) (x6 + 1)) + 1)
        (min (x7 + c2) (min (x8 + 1) (x9 + 1)) + 1)) =
    min (min (x1 + c1) (min (x4 + 1) (x7 + 1)) + c2)
      (min (min (x2 + c1) (min (x5 + 1) (x8 + 1)) + 1)
        (min (x3 + c1) (min (x6 + 1) (x9 + 1)) + 1)) := by
  have dist : ∀ a b c : Nat, min a b + c = min (a + c) (b + c) := by
    intro a b c; omega
  simp only [dist]
  apply le_antisymm
  · simp only [le_min_iff, min_le_iff]
    omega
  · simp only [le_min_iff, min_le_iff]
    omega

/-- Levenshtein distance satisfies the same three-way recurrence when the
last symbols of both words are peeled instead of the first ones.  This is
the recurrence the DP table of the source uses. -/
theorem lev_append (a b : Char) (as bs : List Char) :
    lev (as ++ [a]) (bs ++ [b]) =
      min (lev as bs + (if a = b then 0 else 1))
        (min (lev as (bs ++ [b]) + 1) (lev (as ++ [a]) bs + 1)) := by
  suffices key : ∀ (n : Nat) (as bs : List Char), as.length + bs.length = n →
      lev (as ++ [a]) (bs ++ [b]) =
        min (lev as bs + (if a = b then 0 else 1))
          (min (lev as (bs ++ [b]) + 1) (lev (as ++ [a]) bs + 1)) by
    exact key _ as bs rfl
  intro n
  induction n using Nat.strong_induction_on with
  | _ n ih =>
  intro as bs hn
  subst hn
  cases as with
  | nil =>
    cases bs with
    | nil => simp [lev_cons]
    | cons b' Q =>
      have h1 := ih (0 + Q.length) (by simp) ([] : List Char) Q rfl
      simp only [List.nil_append, List.cons_append] at h1 ⊢
      rw [lev_cons a b', lev_cons a b', h1]
      simp only [lev_nil_left, List.length_append, List.length_cons,
        List.length_nil]
      omega
  | cons a' P =>
    cases bs with
    | nil =>
      have h1 := ih (P.length + 0) (by simp) P ([] : List Char) rfl
      simp only [List.nil_append, List.cons_append] at h1 ⊢
      rw [lev_cons a' b, lev_cons a' b, h1]
      simp only [lev_nil_right, List.length_append, List.length_cons,
        List.length_nil]
      omega
    | cons b' Q =>
      have h1 := ih (P.length + Q.length) (by simp; omega) P Q rfl
      have h2 := ih (P.length + (b' :: Q).length) (by simp) P (b' :: Q) rfl
      have h3 := ih ((a' :: P).length + Q.length) (by simp) (a' :: P) Q rfl
      simp only [List.cons_append] at h1 h2 h3 ⊢
      rw [lev_cons a' b']
      rw [h1, h2, h3]
      rw [lev_cons a' b', lev_cons a' b', lev_cons a' b']
      exact minShuffle _ _ _ _ _ _ _ _ _ _ _

/-- Levenshtein distance is invariant under reversing both words. -/
theorem lev_reverse (as bs : List Char) :
    lev as.reverse bs.reverse = lev as bs := by
  suffices key : ∀ (n : Nat) (as bs : List Char), as.length + bs.length = n →
      lev as.reverse bs.reverse = lev as bs by
    exact key _ as bs rfl
  intro n
  induction n using Nat.strong_induction_on with
  | _ n ih =>
  intro as bs hn
  subst hn
  cases as with
  | nil => simp
  | cons a as' =>
    cases bs with
    | nil => simp
    | cons b bs' =>
      rw [List.reverse_cons, List.reverse_cons, lev_append,
        ← List.reverse_cons b bs', ← List.reverse_cons a as']
      rw [ih (as'.length + bs'.length) (by simp; omega) as' bs' rfl,
        ih (as'.length + (b :: bs').length) (by simp) as' (b :: bs') rfl,
        ih ((a :: as').length + bs'.length) (by simp) (a :: as') bs' rfl,
        lev_cons]

/-! ## The DP rows compute Levenshtein distances -/

/-- Semantic contents of DP-table row `|w|`: cell `j` holds the distance
between the candidate prefix `w` and the query prefix of length `j`. -/
def rowFor (w q : List Char) : List Nat :=
  (List.range (q.length + 1)).map (fun j => lev w (q.take j))

/-- Distances from `w` to the successive extensions of `qdone` by the
symbols of the remaining query `qs`; the tail of a semantic row. -/
def distsFrom (w : List Char) : List Char → List Char → List Nat
  | _, [] => []
  | qdone, qc :: qs => lev w (qdone ++ [qc]) :: distsFrom w (qdone ++ [qc]) qs

theorem distsFrom_eq_map (w : List Char) (qs : List Char) : ∀ (qdone : List Char),
    distsFrom w qdone qs =
      (List.range qs.length).map (fun j => lev w (qdone ++ qs.take (j + 1))) := by
  induction qs with
  | nil => intro qdone; simp [distsFrom]
  | cons qc qs ih =>
      intro qdone
      rw [distsFrom, ih (qdone ++ [qc])]
      rw [List.length_cons, List.range_succ_eq_map, List.map_cons, List.map_map]
      refine congrArg₂ _ (by simp) ?_
      refine List.map_congr_left ?_
      intro j hj
      simp [List.take_succ_cons, List.append_assoc]

theorem rowFor_eq_dists (w q : List Char) :
    rowFor w q = lev w [] :: distsFrom w [] q := by
  rw [rowFor, List.range_succ_eq_map, List.map_cons, List.map_map,
    distsFrom_eq_map w q []]
  refine congrArg₂ _ (by simp) ?_
  refine List.map_congr_left ?_
  intro j hj
  simp

/-- Row 0 of the table, `tab[0][j] = j`, is the semantic row of the empty
candidate prefix. -/
theorem rowFor_nil (q : List Char) : rowFor [] q = List.range (q.length + 1) := by
  rw [rowFor]
  have h : ∀ j ∈ List.range (q.length + 1), lev [] (q.take j) = j := by
    intro j hj
    rw [List.mem_range] at hj
    simp [List.length_take]
    omega
  rw [List.map_congr_left h]
  exact List.map_id _

theorem rowFor_length (w q : List Char) : (rowFor w q).length = q.length + 1 := by
  simp [rowFor]

/-- The inner loop advances a semantic row by one candidate symbol. -/
theorem rowFrom_dists (c : Char) (w : List Char) (qs : List Char) : ∀ (qdone : List Char),
    rowFrom c qs (lev w qdone :: distsFrom w qdone qs) (lev (w ++ [c]) qdone) =
      distsFrom (w ++ [c]) qdone qs := by
  induction qs with
  | nil => intro qdone; rfl
  | cons qc qs ih =>
      intro qdone
      rw [distsFrom, distsFrom, rowFrom]
      rw [← lev_append c qc w qdone, ih (qdone ++ [qc])]

/-- Taking edge `c` recomputes exactly the semantic row of `w ++ [c]`:
the DP-table invariant of the walk. -/
theorem levRow_rowFor (c : Char) (w q : List Char) :
    levRow c q (rowFor w q) (w.length + 1) = rowFor (w ++ [c]) q := by
  rw [rowFor_eq_dists, rowFor_eq_dists, levRow]
  have e1 : w.length + 1 = lev (w ++ [c]) [] := by simp
  rw [e1, rowFrom_dists c w q []]

/-- Reading cell `j` of a semantic row gives the prefix distance. -/
theorem rowFor_getD (w q : List Char) (j : Nat) (hj : j ≤ q.length) :
    rowIdx (rowFor w q) j = lev w (q.take j) := by
  rw [rowIdx, rowFor]
  have h1 : j < (List.range (q.length + 1)).length := by simp; omega
  rw [List.getD_eq_getElem?_getD, List.getElem?_map]
  simp [List.getElem?_range, Nat.lt_succ_of_le hj]

/-- Reading the last cell (`tab[i-1][len(query)]`) gives the distance of
the candidate prefix to the whole query. -/
theorem rowFor_last (w q : List Char) :
    rowIdx (rowFor w q) q.length = lev w q := by
  rw [rowFor_getD w q q.length (Nat.le_refl _), List.take_length]

/-! ## Soundness of the emitted pairs -/

/-- Every pair emitted by the plain walk (prefix mode off) from a node
whose incoming row is the semantic row of `sofar` carries the exact
Levenshtein distance of the emitted word to the query, within budget. -/
theorem fuzzyGo_sound (k : Nat) (q : List Char) :
    ∀ (fuel : Nat) (node : Node) (sofar w : List Char) (d : Nat),
      (w, d) ∈ fuzzyGo (fun _ => k) q false fuel node (sofar.length + 1) sofar
        (rowFor sofar q) →
      d = lev w q ∧ d ≤ k := by
  intro fuel
  induction fuel with
  | zero =>
      intro node sofar w d h
      simp [fuzzyGo] at h
  | succ fuel ih =>
      intro node sofar w d h
      rw [fuzzyGo] at h
      simp only [Bool.false_eq_true, false_and, if_false, ite_false,
        List.mem_flatten, List.mem_map] at h
      obtain ⟨l, ⟨x, hx, hl⟩, hmem⟩ := h
      subst hl
      split at hmem
      · rename_i hterm
        rw [List.mem_singleton, Prod.mk.injEq] at hmem
        obtain ⟨hw, hd⟩ := hmem
        subst hw
        rw [rowFor_last] at hd
        subst hd
        refine ⟨rfl, ?_⟩
        have := hterm.2
        rw [rowFor_last] at this
        exact this
      · split at hmem
        · rw [levRow_rowFor] at hmem
          have h2 : sofar.length + 1 + 1 = (sofar ++ [x.1]).length + 1 := by simp
          rw [h2] at hmem
          exact ih x.2 (sofar ++ [x.1]) w d hmem
        · simp at hmem

/-- Every pair emitted by the FB per-trie walk from a node whose incoming
row is the semantic row of `sofar` carries the exact Levenshtein distance
to `q` and is within the full budget `k`, for any `subk` and `phase`. -/
theorem fbGo_sound (k : Nat) (subq q : List Char) :
    ∀ (fuel : Nat) (subk : Int) (node : Node) (sofar w : List Char) (d : Nat)
      (phase : Nat),
      (w, d) ∈ fbGo (k : Int) subq q fuel subk node (sofar.length + 1) sofar
        (rowFor sofar q) phase →
      d = lev w q ∧ d ≤ k := by
  intro fuel
  induction fuel with
  | zero =>
      intro subk node sofar w d phase h
      simp [fbGo] at h
  | succ fuel ih =>
      intro subk node sofar w d phase h
      rw [fbGo] at h
      simp only [List.mem_flatten, List.mem_map] at h
      obtain ⟨l, ⟨x, hx, hl⟩, hmem⟩ := h
      subst hl
      split at hmem
      · rename_i hterm
        rw [List.mem_singleton, Prod.mk.injEq] at hmem
        obtain ⟨hw, hd⟩ := hmem
        subst hw
        subst hd
        rw [rowFor_last]
        refine ⟨rfl, ?_⟩
        have h2 := hterm.2
        rw [Int.ofNat_le] at h2
        rw [rowFor_last] at h2
        exact h2
      · split at hmem
        · rw [levRow_rowFor] at hmem
          have h2 : sofar.length + 1 + 1 = (sofar ++ [x.1]).length + 1 := by simp
          rw [h2] at hmem
          exact ih k x.2 (sofar ++ [x.1]) w d 2 hmem
        · split at hmem
          · rw [levRow_rowFor] at hmem
            have h2 : sofar.length + 1 + 1 = (sofar ++ [x.1]).length + 1 := by simp
            rw [h2] at hmem
            exact ih subk x.2 (sofar ++ [x.1]) w d phase hmem
          · simp at hmem

/-- C3: For every dictionary, query, and non-negative `k`, every pair
`(word, distance)` yielded by `Trie.fuzzy` (prefix mode off) or by
`FBTrie.fuzzy` satisfies `distance = lev word query` and `distance ≤ k`;
phase B is covered through the invariance of `lev` under reversal. -/
theorem c3_soundness (ws : List (List Char)) (q w : List Char) (d k : Nat) :
    ((w, d) ∈ Trie.fuzzy (buildTrie ws) q k → d = lev w q ∧ d ≤ k) ∧
    ((w, d) ∈ FBTrie.fuzzy (buildFB ws) q k → d = lev w q ∧ d ≤ k) := by
  constructor
  · intro h
    simp only [Trie.fuzzy, Option.getD] at h
    rw [← rowFor_nil q] at h
    exact fuzzyGo_sound k q _ _ [] w d h
  · intro h
    simp only [FBTrie.fuzzy, List.mem_append] at h
    rcases h with h | h
    · simp only [trieFuzzy] at h
      rw [← rowFor_nil q] at h
      exact fbGo_sound k _ q _ _ _ [] w d 1 h
    · rw [List.mem_map] at h
      obtain ⟨⟨w', d'⟩, hp, hpe⟩ := h
      simp only [trieFuzzy] at hp
      rw [← rowFor_nil q.reverse] at hp
      have hs := fbGo_sound k _ q.reverse _ _ _ [] w' d' 1 hp
      rw [Prod.mk.injEq] at hpe
      obtain ⟨hw, hd⟩ := hpe
      subst hw
      subst hd
      refine ⟨?_, hs.2⟩
      have h3 := lev_reverse w'.reverse q
      rw [List.reverse_reverse] at h3
      simp only []
      rw [hs.1]
      exact h3

/-! ## Concrete evaluations: the depth cutoff and the FB budgets lose matches -/

/-- C1: on the spec's own scenario (dictionary cat/cats/bat/rat, query
"cat", k = 1) the code returns only three pairs: the word "cats", whose
true distance 1 is within budget, is never yielded, because the early
return at `i >= len(tab)` fires before the terminator edge of a word of
length `n + k` is examined.  The claimed result set is therefore not
produced by the code. -/
theorem c1_cutoff_bug :
    Trie.fuzzy (buildTrie [chars "cat", chars "cats", chars "bat", chars "rat"])
        (chars "cat") 1 =
      [(chars "cat", 0), (chars "bat", 1), (chars "rat", 1)] ∧
    lev (chars "cats") (chars "cat") = 1 ∧
    (chars "cats", 1) ∉
      Trie.fuzzy (buildTrie [chars "cat", chars "cats", chars "bat", chars "rat"])
        (chars "cat") 1 := by
  decide

/-- C2: the FB decomposition does change semantics: with dictionary {"b"},
query "a", k = 1 the plain trie yields ("b", 1) but `FBTrie.fuzzy` yields
nothing (k1 = k2 = 0 prune both phases before the phase-1 transition test,
which is only evaluated at depths ≥ 1, can apply), so the
deduplicated-by-minimum FB result differs from the plain result. -/
theorem c2_fb_misses_match :
    Trie.fuzzy (buildTrie [chars "b"]) (chars "a") 1 = [(chars "b", 1)] ∧
    FBTrie.fuzzy (buildFB [chars "b"]) (chars "a") 1 = [] ∧
    lev (chars "b") (chars "a") = 1 := by
  decide

/-- C4: `fuzzy(query, 0)` is always empty, even when the query was
inserted: with k = 0 the table has `n + 1` rows, and the terminator edge
of the query itself would only be examined at depth `n + 1`, which the
cutoff rejects.  So the claimed exact-match result `{(query, 0)}` is not
produced. -/
theorem c4_exact_match_bug :
    Trie.fuzzy (buildTrie [chars "a"]) (chars "a") 0 = [] ∧
    lev (chars "a") (chars "a") = 0 := by
  decide

/-- C3 witness: concrete pairs produced by both engines, checked against
the theorem at dictionary {cat, bat}, query "cat", k = 1. -/
theorem c3_soundness_witness :
    (0 = lev (chars "cat") (chars "cat") ∧ 0 ≤ 1) ∧
    (1 = lev (chars "bat") (chars "cat") ∧ 1 ≤ 1) :=
  ⟨(c3_soundness [chars "cat", chars "bat"] (chars "cat") (chars "cat") 0 1).1
      (by decide),
   (c3_soundness [chars "cat", chars "bat"] (chars "cat") (chars "bat") 1 1).2
      (by decide)⟩

/-! ## The k = 0 budgets of the FB decomposition -/

/-- With full budget `0` and sub-budget `-1` (the actual phase-A budget at
`k = 0`), the per-trie FB search emits nothing: a terminator hit would need
distance `n ≤ 0` at depth 1, and no descent guard can pass against `-1`. -/
theorem trieFuzzy_neg_empty (root : Node) (subq q : List Char) :
    trieFuzzy root (-1) 0 subq q = [] := by
  simp only [trieFuzzy, Nat.add_zero]
  cases q with
  | nil => rfl
  | cons qc qs =>
      simp only [List.length_cons]
      rw [fbGo]
      rw [List.flatten_eq_nil_iff]
      intro l hl
      rw [List.mem_map] at hl
      obtain ⟨x, hx, hl⟩ := hl
      subst hl
      simp only []
      have hd : rowIdx (List.range ((qc :: qs).length + 1)) (qc :: qs).length =
          (qc :: qs).length := by
        rw [← rowFor_nil, rowFor_last, lev_nil_left]
      rw [List.length_cons] at hd
      split
      · rename_i hA
        exfalso
        rw [List.length_cons, hd] at hA
        have h2 := hA.2
        omega
      · split
        · rename_i hB
          exfalso
          have h2 := hB.2
          omega
        · split
          · rename_i hC
            exfalso
            omega
          · rfl

/-- C5 counterexample: at `k = 0` the phase-A half budget computed and
passed by `FBTrie.fuzzy` is `(0 - 1) // 2 = -1` under Python floor
division — negative, not `0` as claimed. -/
theorem c5_counterexample : fbK1 0 = -1 ∧ fbK1 0 ≠ 0 := by decide

/-- C5 amended: phase A uses `k1 = (k - 1) // 2` and phase B uses
`k2 = k // 2` (floor division, agreeing with natural division for
`k ≥ 1`), but at `k = 0` the phase-A budget is `-1`, not `0`; with that
budget phase A contributes nothing, so at `k = 0` the whole result is the
phase-B part (reversed words from the backward trie).  -/
theorem c5_amended :
    (∀ k : Nat, fbK2 k = ((k / 2 : Nat) : Int)) ∧
    (∀ k : Nat, 1 ≤ k → fbK1 k = (((k - 1) / 2 : Nat) : Int)) ∧
    fbK1 0 = -1 ∧
    (∀ (t : FBTrie) (q : List Char),
      FBTrie.fuzzy t q 0 =
        (trieFuzzy t.b (fbK2 0) 0 (q.drop (q.length / 2)).reverse q.reverse).map
          (fun p => (p.1.reverse, p.2))) := by
  refine ⟨?_, ?_, by decide, ?_⟩
  · intro k
    rw [fbK2, Int.fdiv_eq_ediv _ (by omega)]
    omega
  · intro k hk
    rw [fbK1, Int.fdiv_eq_ediv _ (by omega)]
    omega
  · intro t q
    rw [FBTrie.fuzzy]
    have hA : trieFuzzy t.f (fbK1 0) 0 (q.take (q.length / 2)) q = [] := by
      have : fbK1 0 = -1 := by decide
      rw [this]
      exact trieFuzzy_neg_empty t.f _ q
    rw [hA, List.nil_append]

/-! ## The phase-1 descent rule -/

/-- Modelled from the spec: a per-trie FB search in which, in phase 1,
"the column-|q1| distance ≤ k1" is "the pruning test (not the full-row
minimum)" — descent in phase 1 happens only through the column test
(which also transitions to phase 2); everything else is as in `fbGo`. -/
def fbGoColTest (k : Int) (subq q : List Char) :
    Nat → Int → Node → Nat → List Char → List Nat → Nat → List (List Char × Nat)
  | 0, _, _, _, _, _, _ => []
  | fuel + 1, subk, node, i, sofar, prev, phase =>
    ((sortChildren node.children).map (fun x =>
      let c := x.1
      let d := rowIdx prev q.length
      if c = term ∧ (d : Int) ≤ k then [(sofar, d)]
      else
        let row := levRow c q prev i
        if phase = 1 then
          if ((rowIdx row subq.length : Nat) : Int) ≤ subk then
            fbGoColTest k subq q fuel k x.2 (i + 1) (sofar ++ [c]) row 2
          else []
        else if ((listMin row : Nat) : Int) ≤ subk then
          fbGoColTest k subq q fuel subk x.2 (i + 1) (sofar ++ [c]) row phase
        else [])).flatten

/-- Modelled from the spec: `trieFuzzy` over the column-test-only walk. -/
def trieFuzzyColTest (root : Node) (subk : Int) (k : Nat) (subq q : List Char) :
    List (List Char × Nat) :=
  let n := q.length
  fbGoColTest (k : Int) subq q (n + k) subk root 1 [] (List.range (n + 1)) 1

/-- Modelled from the spec: `FBTrie.fuzzy` over the column-test-only walk. -/
def FBTrie.fuzzyColTest (t : FBTrie) (query : List Char) (k : Nat) :
    List (List Char × Nat) :=
  let n := query.length
  let q1 := query.take (n / 2)
  let q2 := query.drop (n / 2)
  trieFuzzyColTest t.f (fbK1 k) k q1 query ++
    (trieFuzzyColTest t.b (fbK2 k) k q2.reverse query.reverse).map
      (fun p => (p.1.reverse, p.2))

/-- C6 counterexample: with dictionary {"abce"}, query "abcd", k = 2
(so k1 = 0, q1 = "ab"), the code finds ("abce", 1) although at depth 1 the
column-|q1| value is 1 > k1 = 0 — descent was granted by the full-row
minimum, which the claim says is not the phase-1 pruning test; a search
pruned by the column test alone (both phases) returns nothing. -/
theorem c6_counterexample :
    FBTrie.fuzzy (buildFB [chars "abce"]) (chars "abcd") 2 =
      [(chars "abce", 1), (chars "abce", 1)] ∧
    FBTrie.fuzzyColTest (buildFB [chars "abce"]) (chars "abcd") 2 = [] ∧
    rowIdx (levRow ('a') (chars "abcd") (List.range 5) 1) (chars "ab").length = 1 ∧
    ¬ ((rowIdx (levRow ('a') (chars "abcd") (List.range 5) 1)
        (chars "ab").length : Int) ≤ fbK1 2) := by
  decide

/-- C6 amended: once the column test succeeds the walk continues in phase 2
and never reverts: in phase 2 the first-half target is never consulted
again — the phase-2 walk is literally independent of `subq`, its only
descent test being the full-row minimum against the budget in force;
however, phase-1 descent is granted by the column test or by the full-row
minimum being within `k1`, not by the column test alone. -/
theorem c6_amended :
    ∀ (fuel : Nat) (k subk : Int) (subq subq' q : List Char) (node : Node)
      (i : Nat) (sofar : List Char) (prev : List Nat),
      fbGo k subq q fuel subk node i sofar prev 2 =
        fbGo k subq' q fuel subk node i sofar prev 2 := by
  intro fuel
  induction fuel with
  | zero => intros; rfl
  | succ fuel ih =>
      intro k subk subq subq' q node i sofar prev
      rw [fbGo, fbGo]
      congr 1
      refine List.map_congr_left ?_
      intro x hx
      simp only []
      split
      · rfl
      · have hp1 : ¬ ((2 : Nat) = 1 ∧
            ((rowIdx (levRow x.1 q prev i) subq.length : Nat) : Int) ≤ subk) :=
          fun hcon => absurd hcon.1 (by decide)
        have hp2 : ¬ ((2 : Nat) = 1 ∧
            ((rowIdx (levRow x.1 q prev i) subq'.length : Nat) : Int) ≤ subk) :=
          fun hcon => absurd hcon.1 (by decide)
        rw [if_neg hp1, if_neg hp2]
        split
        · exact ih k subk subq subq' q x.2 (i + 1) (sofar ++ [x.1])
            (levRow x.1 q prev i)
        · rfl

/-! ## Well-formed tries -/

/-- Hereditary well-formedness of a trie built from terminator-free words:
every node's children carry pairwise-distinct symbols, and the child under
the terminator symbol is the empty node. -/
inductive WF : Node → Prop where
  | mk : ∀ cs : List (Char × Node),
      (cs.map Prod.fst).Nodup →
      (∀ t : Node, (term, t) ∈ cs → t = Node.mk []) →
      (∀ (c : Char) (t : Node), (c, t) ∈ cs → WF t) →
      WF (Node.mk cs)

theorem WF_empty : WF (Node.mk []) := by
  refine WF.mk [] (by simp) (by simp) (by simp)

theorem updateChild_keys (f : Node → Node) (c : Char) : ∀ cs : List (Char × Node),
    (updateChild f cs c).map Prod.fst =
      if c ∈ cs.map Prod.fst then cs.map Prod.fst else cs.map Prod.fst ++ [c] := by
  intro cs
  induction cs with
  | nil => simp [updateChild]
  | cons x xs ih =>
      rw [updateChild]
      by_cases hc : c = x.1
      · simp [hc]
      · rw [if_neg hc]
        simp only [List.map_cons, ih, List.mem_cons]
        by_cases hmem : c ∈ xs.map Prod.fst
        · simp [hmem, fun h => hc h]
        · have : ¬ (c = x.1 ∨ c ∈ List.map Prod.fst xs) := by
            intro hcon
            rcases hcon with hcon | hcon
            · exact hc hcon
            · exact hmem hcon
          simp [hmem, this, hc]

theorem updateChild_mem (f : Node → Node) (c : Char) :
    ∀ (cs : List (Char × Node)) (c' : Char) (t' : Node),
      (c', t') ∈ updateChild f cs c →
      (c', t') ∈ cs ∨
        (c' = c ∧ ((∃ t0 : Node, (c, t0) ∈ cs ∧ t' = f t0) ∨ t' = f (Node.mk []))) := by
  intro cs
  induction cs with
  | nil =>
      intro c' t' h
      rw [updateChild, List.mem_singleton, Prod.mk.injEq] at h
      exact Or.inr ⟨h.1, Or.inr h.2⟩
  | cons x xs ih =>
      intro c' t' h
      rw [updateChild] at h
      by_cases hc : c = x.1
      · rw [if_pos hc] at h
        rw [List.mem_cons, Prod.mk.injEq] at h
        rcases h with ⟨h1, h2⟩ | h
        · refine Or.inr ⟨h1.trans hc.symm, Or.inl ⟨x.2, ?_, h2⟩⟩
          rw [hc]
          exact List.mem_cons_self x xs
        · exact Or.inl (List.mem_cons_of_mem x h)
      · rw [if_neg hc] at h
        rw [List.mem_cons] at h
        rcases h with h | h
        · exact Or.inl (List.mem_cons.mpr (Or.inl h))
        · rcases ih c' t' h with h1 | h1
          · exact Or.inl (List.mem_cons_of_mem x h1)
          · rcases h1 with ⟨he, h1⟩
            refine Or.inr ⟨he, ?_⟩
            rcases h1 with ⟨t0, ht0, hte⟩ | h1
            · exact Or.inl ⟨t0, List.mem_cons_of_mem x ht0, hte⟩
            · exact Or.inr h1

theorem updateChild_WF (f : Node → Node) (c : Char) (cs : List (Char × Node))
    (hwf : WF (Node.mk cs)) (hf : ∀ t : Node, WF t → WF (f t))
    (hterm1 : c ≠ term ∨ (∀ t : Node, f t = t)) :
    WF (Node.mk (updateChild f cs c)) := by
  cases hwf with
  | mk _ hkeys htc hch =>
  refine WF.mk _ ?_ ?_ ?_
  · rw [updateChild_keys]
    split
    · exact hkeys
    · rename_i hnm
      simp only [List.nodup_append, List.nodup_cons, List.nodup_nil]
      refine ⟨hkeys, by simp, ?_⟩
      intro a ha
      simp only [List.mem_singleton]
      intro hac
      subst hac
      exact hnm ha
  · intro t ht
    rcases updateChild_mem f c cs term t ht with h | ⟨he, h⟩
    · exact htc t h
    · rcases hterm1 with hne | hid
      · exact absurd he.symm hne
      · rcases h with ⟨t0, ht0, hte⟩ | hte
        · rw [hte, hid]
          exact htc t0 (he ▸ ht0)
        · rw [hte, hid]
  · intro c' t ht
    rcases updateChild_mem f c cs c' t ht with h | ⟨he, h⟩
    · exact hch c' t h
    · rcases h with ⟨t0, ht0, hte⟩ | hte
      · rw [hte]
        exact hf t0 (hch c t0 ht0)
      · rw [hte]
        exact hf _ WF_empty

theorem insertWalk_WF : ∀ (w : List Char), term ∉ w →
    ∀ node : Node, WF node → WF (insertWalk (w ++ [term]) node) := by
  intro w
  induction w with
  | nil =>
      intro _ node hwf
      cases node with
      | mk cs =>
          rw [List.nil_append, insertWalk]
          refine updateChild_WF _ term cs hwf ?_ (Or.inr ?_)
          · intro t ht
            rw [insertWalk]
            exact ht
          · intro t
            rfl
  | cons c w ih =>
      intro hnm node hwf
      cases node with
      | mk cs =>
          rw [List.cons_append, insertWalk]
          have hc : c ≠ term := by
            intro hcon
            exact hnm (hcon ▸ List.mem_cons_self c w)
          refine updateChild_WF _ c cs hwf ?_ (Or.inl hc)
          intro t ht
          exact ih (fun hcon => hnm (List.mem_cons_of_mem c hcon)) t ht

theorem insert_WF (root : Node) (w : List Char) (hw : term ∉ w) (h : WF root) :
    WF (Trie.insert root w) :=
  insertWalk_WF w hw root h

theorem buildTrie_WF (ws : List (List Char)) (h : ∀ w ∈ ws, term ∉ w) :
    WF (buildTrie ws) := by
  rw [buildTrie]
  suffices key : ∀ (acc : Node), WF acc → WF (ws.foldl Trie.insert acc) by
    exact key (Node.mk []) WF_empty
  induction ws with
  | nil => intro acc hacc; exact hacc
  | cons w ws ih =>
      intro acc hacc
      rw [List.foldl_cons]
      refine ih (fun a ha => h a (List.mem_cons_of_mem w ha)) _ ?_
      exact insert_WF acc w (h w (List.mem_cons_self w ws)) hacc

/-! ## Monotonicity in the budget -/

theorem fuzzyGo_empty_node (kf : Nat → Nat) (q : List Char) (fuel i : Nat)
    (sofar : List Char) (prev : List Nat) :
    fuzzyGo kf q false fuel (Node.mk []) i sofar prev = [] := by
  cases fuel <;> simp [fuzzyGo, Node.children]

/-- Raising the constant budget and the row capacity only adds yields:
every pair emitted by the smaller search is emitted by the larger one.
Requires a well-formed trie (so that a terminator's child is empty). -/
theorem fuzzyGo_mono (q : List Char) (k1 k2 : Nat) (hk : k1 ≤ k2) :
    ∀ (fuel1 fuel2 : Nat), fuel1 ≤ fuel2 →
      ∀ node : Node, WF node →
      ∀ (i : Nat) (sofar : List Char) (prev : List Nat) (p : List Char × Nat),
        p ∈ fuzzyGo (fun _ => k1) q false fuel1 node i sofar prev →
        p ∈ fuzzyGo (fun _ => k2) q false fuel2 node i sofar prev := by
  intro fuel1
  induction fuel1 with
  | zero =>
      intro fuel2 _ node _ i sofar prev p h
      simp [fuzzyGo] at h
  | succ fuel1 ih =>
      intro fuel2 hf node hwf i sofar prev p h
      cases fuel2 with
      | zero => omega
      | succ fuel2 =>
      rw [fuzzyGo] at h
      rw [fuzzyGo]
      simp only [Bool.false_eq_true, false_and, if_false, ite_false] at h ⊢
      rw [List.mem_flatten] at h ⊢
      obtain ⟨l, hl, hmem⟩ := h
      rw [List.mem_map] at hl
      obtain ⟨x, hx, hle⟩ := hl
      subst hle
      cases hwf with
      | mk cs hkeys htc hch =>
      refine ⟨_, List.mem_map.mpr ⟨x, hx, rfl⟩, ?_⟩
      split at hmem
      · rename_i hA
        rw [if_pos ⟨hA.1, le_trans hA.2 hk⟩]
        exact hmem
      · rename_i hA
        split at hmem
        · rename_i hmin
          by_cases hct : x.1 = term
          · have hmm : (term, x.2) ∈ cs := by
              rw [← hct]
              exact hx
            have hx2 : x.2 = Node.mk [] := htc x.2 hmm
            rw [hx2, fuzzyGo_empty_node] at hmem
            simp at hmem
          · have hB2 : ¬ (x.1 = term ∧ rowIdx prev q.length ≤ k2) :=
              fun hcon => hct hcon.1
            rw [if_neg hB2, if_pos (le_trans hmin hk)]
            exact ih fuel2 (by omega) x.2 (hch x.1 x.2 (by exact hx)) (i + 1)
              (sofar ++ [x.1]) _ p hmem
        · simp at hmem

/-- C7: for budgets `k1 ≤ k2` over a dictionary of terminator-free words,
every pair yielded at budget `k1` is yielded at budget `k2`, and a word
present in both results carries the identical distance. -/
theorem c7_monotone (ws : List (List Char)) (hws : ∀ w ∈ ws, term ∉ w)
    (q : List Char) (k1 k2 : Nat) (hk : k1 ≤ k2) (w : List Char) (d d2 : Nat) :
    ((w, d) ∈ Trie.fuzzy (buildTrie ws) q k1 →
      (w, d) ∈ Trie.fuzzy (buildTrie ws) q k2) ∧
    ((w, d) ∈ Trie.fuzzy (buildTrie ws) q k1 →
      (w, d2) ∈ Trie.fuzzy (buildTrie ws) q k2 → d = d2) := by
  constructor
  · intro h
    simp only [Trie.fuzzy, Option.getD] at h ⊢
    exact fuzzyGo_mono q k1 k2 hk (q.length + k1) (q.length + k2) (by omega)
      (buildTrie ws) (buildTrie_WF ws hws) 1 [] _ (w, d) h
  · intro h1 h2
    have e1 : d = lev w q := by
      simp only [Trie.fuzzy, Option.getD] at h1
      rw [← rowFor_nil q] at h1
      exact (fuzzyGo_sound k1 q _ _ [] w d h1).1
    have e2 : d2 = lev w q := by
      simp only [Trie.fuzzy, Option.getD] at h2
      rw [← rowFor_nil q] at h2
      exact (fuzzyGo_sound k2 q _ _ [] w d2 h2).1
    rw [e1, e2]

/-- C7 witness: at dictionary {"cat"} and query "cat", the pair found at
budget 1 is found at budget 2 with the same distance. -/
theorem c7_monotone_witness :
    (chars "cat", 0) ∈ Trie.fuzzy (buildTrie [chars "cat"]) (chars "cat") 2 ∧
    (0 : Nat) = 0 :=
  ⟨(c7_monotone [chars "cat"] (by decide) (chars "cat") 1 2 (by decide)
      (chars "cat") 0 0).1 (by decide),
   (c7_monotone [chars "cat"] (by decide) (chars "cat") 1 2 (by decide)
      (chars "cat") 0 0).2 (by decide) (by decide)⟩

/-! ## The DP-table invariant (C9) -/

/-- C9: DP-table invariant.  Row 0 is the semantic row of the empty prefix
with cell `(0, j) = j`; cell `j` of the semantic row of a candidate prefix
`w` holds exactly the Levenshtein distance between `w` and the length-`j`
query prefix; and the row computed by the classic recurrence (`levRow`,
substitution cost 0 on a match, else 1) when edge `c` is taken from a node
whose row is the semantic row of `w` is exactly the semantic row of
`w ++ [c]` — so along any walk every computed row holds the exact prefix
distances. -/
theorem c9_dp_invariant (w : List Char) (c : Char) (q : List Char) (j : Nat)
    (hj : j ≤ q.length) :
    List.range (q.length + 1) = rowFor [] q ∧
    rowIdx (rowFor [] q) j = j ∧
    rowIdx (rowFor w q) j = lev w (q.take j) ∧
    levRow c q (rowFor w q) (w.length + 1) = rowFor (w ++ [c]) q := by
  refine ⟨(rowFor_nil q).symm, ?_, rowFor_getD w q j hj, levRow_rowFor c w q⟩
  rw [rowFor_getD [] q j hj, lev_nil_left, List.length_take]
  omega

/-- C9 witness: the invariant at the concrete prefix "ca", edge 't',
query "cat", column 2. -/
theorem c9_dp_invariant_witness :
    List.range ((chars "cat").length + 1) = rowFor [] (chars "cat") ∧
    rowIdx (rowFor [] (chars "cat")) 2 = 2 ∧
    rowIdx (rowFor (chars "ca") (chars "cat")) 2 =
      lev (chars "ca") ((chars "cat").take 2) ∧
    levRow ('t') (chars "cat") (rowFor (chars "ca") (chars "cat"))
        ((chars "ca").length + 1) =
      rowFor (chars "ca" ++ [('t')]) (chars "cat") :=
  c9_dp_invariant (chars "ca") ('t') (chars "cat") 2 (by decide)

/-! ## Words are yielded at most once (C10) -/

/-- Every word yielded from a node extends the accumulated string. -/
theorem fuzzyGo_shape (kf : Nat → Nat) (q : List Char) :
    ∀ (fuel : Nat) (node : Node) (i : Nat) (sofar : List Char) (prev : List Nat)
      (w : List Char) (d : Nat),
      (w, d) ∈ fuzzyGo kf q false fuel node i sofar prev →
      ∃ rest : List Char, w = sofar ++ rest := by
  intro fuel
  induction fuel with
  | zero =>
      intro node i sofar prev w d h
      simp [fuzzyGo] at h
  | succ fuel ih =>
      intro node i sofar prev w d h
      rw [fuzzyGo] at h
      simp only [Bool.false_eq_true, false_and, if_false, ite_false,
        List.mem_flatten, List.mem_map] at h
      obtain ⟨l, ⟨x, hx, hl⟩, hmem⟩ := h
      subst hl
      split at hmem
      · rw [List.mem_singleton, Prod.mk.injEq] at hmem
        exact ⟨[], by rw [hmem.1, List.append_nil]⟩
      · split at hmem
        · obtain ⟨rest, hrest⟩ := ih x.2 (i + 1) (sofar ++ [x.1]) _ w d hmem
          exact ⟨x.1 :: rest, by rw [hrest, List.append_assoc, List.singleton_append]⟩
        · simp at hmem

/-- Words contributed through one child edge: the terminator edge yields
the accumulated string itself, any other descent yields strings extending
it by that child's symbol. -/
theorem fuzzyGo_child_shape (kf : Nat → Nat) (q : List Char) (fuel i : Nat)
    (sofar : List Char) (prev : List Nat) (c : Char) (t : Node) (w : List Char)
    (h : w ∈ (if c = term ∧ rowIdx prev q.length ≤ kf i then
          [(sofar, rowIdx prev q.length)]
        else if listMin (levRow c q prev i) ≤ kf i then
          fuzzyGo kf q false fuel t (i + 1) (sofar ++ [c]) (levRow c q prev i)
        else []).map Prod.fst) :
    (c = term ∧ w = sofar) ∨ ∃ rest : List Char, w = sofar ++ c :: rest := by
  rw [List.mem_map] at h
  obtain ⟨p, hp, hpe⟩ := h
  split at hp
  · rename_i hA
    rw [List.mem_singleton] at hp
    subst hp
    exact Or.inl ⟨hA.1, hpe.symm⟩
  · split at hp
    · obtain ⟨rest, hrest⟩ :=
        fuzzyGo_shape kf q fuel t (i + 1) (sofar ++ [c]) _ p.1 p.2 hp
      refine Or.inr ⟨rest, ?_⟩
      rw [← hpe, hrest, List.append_assoc, List.singleton_append]
    · simp at hp

/-- C10 core: within one call (prefix mode off) over a well-formed trie,
the list of yielded words has no duplicates. -/
theorem fuzzyGo_nodup (kf : Nat → Nat) (q : List Char) :
    ∀ (fuel : Nat) (node : Node), WF node →
      ∀ (i : Nat) (sofar : List Char) (prev : List Nat),
        ((fuzzyGo kf q false fuel node i sofar prev).map Prod.fst).Nodup := by
  intro fuel
  induction fuel with
  | zero =>
      intro node _ i sofar prev
      simp [fuzzyGo]
  | succ fuel ih =>
      intro node hwf i sofar prev
      cases hwf with
      | mk cs hkeys htc hch =>
      rw [fuzzyGo]
      simp only [Bool.false_eq_true, false_and, if_false, ite_false, Node.children]
      rw [List.map_flatten, List.nodup_flatten]
      constructor
      · intro l hl
        rw [List.map_map, List.mem_map] at hl
        obtain ⟨x, hx, hl⟩ := hl
        subst hl
        simp only [Function.comp]
        split
        · simp
        · split
          · exact ih x.2 (hch x.1 x.2 hx) (i + 1) (sofar ++ [x.1]) _
          · simp
      · rw [List.map_map, List.pairwise_map]
        have hkp : cs.Pairwise (fun a b => a.1 ≠ b.1) := by
          rw [List.Nodup, List.pairwise_map] at hkeys
          exact hkeys
        refine List.Pairwise.imp_of_mem ?_ hkp
        intro x y hx hy hne
        intro w hw1 hw2
        simp only [Function.comp] at hw1 hw2
        rcases fuzzyGo_child_shape kf q fuel i sofar prev x.1 x.2 w hw1 with
          ⟨hx1, hwx⟩ | ⟨r1, hwx⟩ <;>
          rcases fuzzyGo_child_shape kf q fuel i sofar prev y.1 y.2 w hw2 with
            ⟨hy1, hwy⟩ | ⟨r2, hwy⟩
        · exact hne (hx1.trans hy1.symm)
        · rw [hwx] at hwy
          have hlen := congrArg List.length hwy
          simp at hlen
        · rw [hwy] at hwx
          have hlen := congrArg List.length hwx
          simp at hlen
        · rw [hwx] at hwy
          have hcc := List.append_cancel_left hwy
          injection hcc with h1 _
          exact hne h1

/-- C10: within a single call to `Trie.fuzzy` (prefix mode off) over a
dictionary of terminator-free words, each word is yielded at most once, no
matter how many times it was inserted (a word has a unique terminator
path); `FBTrie.fuzzy`, in contrast, can yield the same word once per
phase, as the concrete run with {"abce"}, "abcd", k = 2 shows. -/
theorem c10_no_duplicates (ws : List (List Char)) (hws : ∀ w ∈ ws, term ∉ w)
    (q : List Char) (k : Nat) :
    ((Trie.fuzzy (buildTrie ws) q k).map Prod.fst).Nodup ∧
    ¬ ((FBTrie.fuzzy (buildFB [chars "abce"]) (chars "abcd") 2).map
        Prod.fst).Nodup := by
  constructor
  · simp only [Trie.fuzzy, Option.getD]
    exact fuzzyGo_nodup _ q (q.length + k) (buildTrie ws)
      (buildTrie_WF ws hws) 1 [] _
  · decide

/-- C10 witness: the word "cat" inserted twice is yielded once. -/
theorem c10_no_duplicates_witness :
    ((Trie.fuzzy (buildTrie [chars "cat", chars "cat"]) (chars "cat") 1).map
        Prod.fst).Nodup ∧
    ¬ ((FBTrie.fuzzy (buildFB [chars "abce"]) (chars "abcd") 2).map
        Prod.fst).Nodup :=
  c10_no_duplicates [chars "cat", chars "cat"] (by decide) (chars "cat") 1

/-! ## A bounds-checked embedding: totality and boundary safety (C8) -/

/-- Reading cell `j` of a row as a checked lookup (`none` models a Python
`IndexError`). -/
theorem rowIdx_get? (l : List Nat) (j : Nat) (h : j < l.length) :
    l.get? j = some (rowIdx l j) := by
  simp [rowIdx, List.getD, List.get?_eq_getElem?, List.getElem?_eq_getElem h]

/-- Checked counterpart of the inner row loop: each `query[j-1]`,
`tab[i-1][j-1]` and `tab[i-1][j]` access is a checked lookup, and the loop
runs `cnt = len(tab[i]) - 1` times starting at `j`, exactly like
`for j in range(1, len(tab[i]))`. -/
def rowLoopC (c : Char) (q : List Char) (prev : List Nat) :
    Nat → Nat → Nat → Option (List Nat)
  | 0, _, _ => some []
  | cnt + 1, j, left =>
      match q.get? (j - 1), prev.get? (j - 1), prev.get? j with
      | some qc, some p0, some p1 =>
          let cost : Nat := if c = qc then 0 else 1
          let v := min (p0 + cost) (min (p1 + 1) (left + 1))
          (rowLoopC c q prev cnt (j + 1) v).map (fun rest => v :: rest)
      | _, _, _ => none

/-- Checked row computation: `tab[i][0] = i` then the checked loop. -/
def levRowC (c : Char) (q : List Char) (prev : List Nat) (i rowLen : Nat) :
    Option (List Nat) :=
  (rowLoopC c q prev (rowLen - 1) 1 i).map (fun rest => i :: rest)

theorem get?_append_len {α : Type} (l1 l2 : List α) (x : α) :
    (l1 ++ x :: l2).get? l1.length = some x := by
  rw [List.get?_eq_getElem?, List.getElem?_append_right (Nat.le_refl _)]
  simp

theorem get?_append_len_succ {α : Type} (l1 l2 : List α) (x y : α) :
    (l1 ++ x :: y :: l2).get? (l1.length + 1) = some y := by
  rw [List.get?_eq_getElem?, List.getElem?_append_right (by omega)]
  simp

/-- The checked loop agrees with the unchecked loop whenever the previous
row really has one more cell than the remaining query has symbols: no
access is ever out of range. -/
theorem rowLoopC_eq (c : Char) : ∀ (qs qdone : List Char) (ps pdone : List Nat)
    (left : Nat), ps.length = qs.length + 1 → pdone.length = qdone.length →
    rowLoopC c (qdone ++ qs) (pdone ++ ps) qs.length (qdone.length + 1) left =
      some (rowFrom c qs ps left) := by
  intro qs
  induction qs with
  | nil =>
      intro qdone ps pdone left _ _
      rfl
  | cons qc qs ih =>
      intro qdone ps pdone left hps hpd
      match ps with
      | p0 :: p1 :: ps' =>
      rw [List.length_cons, rowLoopC]
      have e1 : qdone.length + 1 - 1 = qdone.length := by omega
      rw [e1]
      rw [get?_append_len qdone qs qc]
      rw [← hpd, get?_append_len pdone _ p0, get?_append_len_succ pdone ps' p0 p1]
      simp only []
      have e2 : pdone.length + 1 + 1 = (qdone ++ [qc]).length + 1 := by
        simp [hpd]
      have e3 : qdone ++ qc :: qs = (qdone ++ [qc]) ++ qs := by
        rw [List.append_assoc, List.singleton_append]
      have e4 : pdone ++ p0 :: p1 :: ps' = (pdone ++ [p0]) ++ (p1 :: ps') := by
        rw [List.append_assoc, List.singleton_append]
      rw [e2, e3, e4]
      rw [ih (qdone ++ [qc]) (p1 :: ps') (pdone ++ [p0])
        (min (p0 + if c = qc then 0 else 1) (min (p1 + 1) (left + 1)))
        (by simp at hps ⊢; omega) (by simp [hpd])]
      rw [rowFrom]
      rfl

/-- The checked row computation agrees with the unchecked one whenever the
previous row has full length `n + 1` and the allocated row length is
`n + 1`, as set up by `fuzzy`. -/
theorem levRowC_eq (c : Char) (q : List Char) (prev : List Nat) (i : Nat)
    (hp : prev.length = q.length + 1) :
    levRowC c q prev i (q.length + 1) = some (levRow c q prev i) := by
  rw [levRowC]
  have h := rowLoopC_eq c q [] prev [] i hp rfl
  simp only [List.nil_append, List.length_nil, Nat.zero_add] at h
  have e1 : q.length + 1 - 1 = q.length := by omega
  rw [e1, h]
  rfl

theorem rowFrom_length (c : Char) : ∀ (qs : List Char) (ps : List Nat) (left : Nat),
    ps.length = qs.length + 1 → (rowFrom c qs ps left).length = qs.length := by
  intro qs
  induction qs with
  | nil => intro ps left _; rfl
  | cons qc qs ih =>
      intro ps left hps
      match ps with
      | p0 :: p1 :: ps' =>
      rw [rowFrom]
      simp only [List.length_cons]
      rw [ih (p1 :: ps') _ (by simp at hps ⊢; omega)]

theorem levRow_length (c : Char) (q : List Char) (prev : List Nat) (i : Nat)
    (hp : prev.length = q.length + 1) :
    (levRow c q prev i).length = q.length + 1 := by
  rw [levRow, List.length_cons, rowFrom_length c q prev i hp]

/-- Every element-wise `some` makes `mapM` a `some` of the `map`. -/
theorem mapM_eq_map {α β : Type} (f : α → Option β) (g : α → β) :
    ∀ l : List α, (∀ x ∈ l, f x = some (g x)) → l.mapM f = some (l.map g) := by
  intro l
  induction l with
  | nil => intro _; rfl
  | cons x xs ih =>
      intro h
      rw [List.mapM_cons, h x (List.mem_cons_self x xs),
        ih (fun a ha => h a (List.mem_cons_of_mem x ha))]
      rfl

/-- Checked counterpart of `Trie.fuzzy_`: every DP-table and query access
is a checked lookup; `rowLen` is the allocated row length `n + 1`. -/
def fuzzyGoC (kf : Nat → Nat) (q : List Char) (pre : Bool) (rowLen : Nat) :
    Nat → Node → Nat → List Char → List Nat → Option (List (List Char × Nat))
  | fuel, node, i, sofar, prev =>
    let k := kf i
    if pre = true ∧ q.length + 1 ≤ i then
      match prev.get? q.length with
      | none => none
      | some d => some (if d ≤ k then Trie.traverse d node sofar else [])
    else
      match fuel with
      | 0 => some []
      | fuel + 1 =>
        (node.children.mapM (fun (x : Char × Node) =>
          let c := x.1
          match prev.get? q.length with
          | none => none
          | some d =>
            if c = term ∧ d ≤ k then some [(sofar, d)]
            else
              match levRowC c q prev i rowLen with
              | none => none
              | some row =>
                if listMin row ≤ k then
                  fuzzyGoC kf q pre rowLen fuel x.2 (i + 1) (sofar ++ [c]) row
                else some [])).map List.flatten

/-- Source `Trie.fuzzy` over the checked walk. -/
def Trie.fuzzyChecked (root : Node) (query : List Char) (k : Nat)
    (kf : Option (Nat → Nat) := none) (pre : Bool := false) :
    Option (List (List Char × Nat)) :=
  let n := query.length
  let kf' := kf.getD (fun _ => k)
  fuzzyGoC kf' query pre (n + 1) (n + k) root 1 [] (List.range (n + 1))

/-- The checked walk never fails and agrees with the unchecked walk, for
every trie, depth, accumulated string and full-length row: all accesses
are within bounds. -/
theorem fuzzyGoC_eq (kf : Nat → Nat) (q : List Char) (pre : Bool) :
    ∀ (fuel : Nat) (node : Node) (i : Nat) (sofar : List Char) (prev : List Nat),
      prev.length = q.length + 1 →
      fuzzyGoC kf q pre (q.length + 1) fuel node i sofar prev =
        some (fuzzyGo kf q pre fuel node i sofar prev) := by
  intro fuel
  induction fuel with
  | zero =>
      intro node i sofar prev hp
      rw [fuzzyGoC, fuzzyGo]
      rw [rowIdx_get? prev q.length (by omega)]
      split
      · rfl
      · rfl
  | succ fuel ih =>
      intro node i sofar prev hp
      rw [fuzzyGoC, fuzzyGo]
      rw [rowIdx_get? prev q.length (by omega)]
      split
      · rfl
      · rw [mapM_eq_map _ (fun x : Char × Node =>
            if x.1 = term ∧ rowIdx prev q.length ≤ kf i then
              [(sofar, rowIdx prev q.length)]
            else
              if listMin (levRow x.1 q prev i) ≤ kf i then
                fuzzyGo kf q pre fuel x.2 (i + 1) (sofar ++ [x.1])
                  (levRow x.1 q prev i)
              else []) _ (by
          intro x hx
          dsimp only
          split
          · rfl
          · rw [levRowC_eq x.1 q prev i hp]
            dsimp only
            split
            · exact ih x.2 (i + 1) (sofar ++ [x.1]) _
                (levRow_length x.1 q prev i hp)
            · rfl)]
        rfl

/-- Checked counterpart of `FBTrie.trie_fuzzy_`: every access (including
the phase-1 read of `tab[i][len(subq)]`, which Python's short-circuit
`and` evaluates only in phase 1) is a checked lookup. -/
def fbGoC (k : Int) (subq q : List Char) (rowLen : Nat) :
    Nat → Int → Node → Nat → List Char → List Nat → Nat →
      Option (List (List Char × Nat))
  | 0, _, _, _, _, _, _ => some []
  | fuel + 1, subk, node, i, sofar, prev, phase =>
    ((sortChildren node.children).mapM (fun (x : Char × Node) =>
      let c := x.1
      match prev.get? q.length with
      | none => none
      | some d =>
        if c = term ∧ (d : Int) ≤ k then some [(sofar, d)]
        else
          match levRowC c q prev i rowLen with
          | none => none
          | some row =>
            if phase = 1 then
              match row.get? subq.length with
              | none => none
              | some col =>
                if (col : Int) ≤ subk then
                  fbGoC k subq q rowLen fuel k x.2 (i + 1) (sofar ++ [c]) row 2
                else if ((listMin row : Nat) : Int) ≤ subk then
                  fbGoC k subq q rowLen fuel subk x.2 (i + 1) (sofar ++ [c])
                    row phase
                else some []
            else if ((listMin row : Nat) : Int) ≤ subk then
              fbGoC k subq q rowLen fuel subk x.2 (i + 1) (sofar ++ [c]) row phase
            else some [])).map List.flatten

/-- The checked FB walk never fails and agrees with the unchecked FB walk
whenever the incoming row has full length and the half-query is no longer
than the query — both invariants of the two FB phases. -/
theorem fbGoC_eq (k : Int) (subq q : List Char) (hsub : subq.length ≤ q.length) :
    ∀ (fuel : Nat) (subk : Int) (node : Node) (i : Nat) (sofar : List Char)
      (prev : List Nat) (phase : Nat),
      prev.length = q.length + 1 →
      fbGoC k subq q (q.length + 1) fuel subk node i sofar prev phase =
        some (fbGo k subq q fuel subk node i sofar prev phase) := by
  intro fuel
  induction fuel with
  | zero =>
      intro subk node i sofar prev phase hp
      rfl
  | succ fuel ih =>
      intro subk node i sofar prev phase hp
      rw [fbGoC, fbGo]
      rw [rowIdx_get? prev q.length (by omega)]
      rw [mapM_eq_map _ (fun x : Char × Node =>
          if x.1 = term ∧ ((rowIdx prev q.length : Nat) : Int) ≤ k then
            [(sofar, rowIdx prev q.length)]
          else
            if phase = 1 ∧
                ((rowIdx (levRow x.1 q prev i) subq.length : Nat) : Int) ≤ subk then
              fbGo k subq q fuel k x.2 (i + 1) (sofar ++ [x.1])
                (levRow x.1 q prev i) 2
            else
              if ((listMin (levRow x.1 q prev i) : Nat) : Int) ≤ subk then
                fbGo k subq q fuel subk x.2 (i + 1) (sofar ++ [x.1])
                  (levRow x.1 q prev i) phase
              else []) _ (by
        intro x hx
        dsimp only
        split
        · rfl
        · rw [levRowC_eq x.1 q prev i hp]
          dsimp only
          by_cases hph : phase = 1
          · rw [if_pos hph]
            rw [rowIdx_get? (levRow x.1 q prev i) subq.length
              (by rw [levRow_length x.1 q prev i hp]; omega)]
            dsimp only
            by_cases hcol :
                ((rowIdx (levRow x.1 q prev i) subq.length : Nat) : Int) ≤ subk
            · rw [if_pos hcol, if_pos ⟨hph, hcol⟩]
              exact ih k x.2 (i + 1) (sofar ++ [x.1]) _ 2
                (levRow_length x.1 q prev i hp)
            · have hn2 : ¬ (phase = 1 ∧
                  ((rowIdx (levRow x.1 q prev i) subq.length : Nat) : Int) ≤
                    subk) := fun hcon => hcol hcon.2
              rw [if_neg hcol, if_neg hn2]
              split
              · exact ih subk x.2 (i + 1) (sofar ++ [x.1]) _ phase
                  (levRow_length x.1 q prev i hp)
              · rfl
          · have hn1 : ¬ (phase = 1 ∧
                ((rowIdx (levRow x.1 q prev i) subq.length : Nat) : Int) ≤
                  subk) := fun hcon => hph hcon.1
            rw [if_neg hph, if_neg hn1]
            split
            · exact ih subk x.2 (i + 1) (sofar ++ [x.1]) _ phase
                (levRow_length x.1 q prev i hp)
            · rfl)]
      rfl

/-- Source `FBTrie.trie_fuzzy` over the checked walk. -/
def trieFuzzyChecked (root : Node) (subk : Int) (k : Nat) (subq q : List Char) :
    Option (List (List Char × Nat)) :=
  let n := q.length
  fbGoC (k : Int) subq q (n + 1) (n + k) subk root 1 [] (List.range (n + 1)) 1

/-- Source `FBTrie.fuzzy` over the checked walk. -/
def FBTrie.fuzzyChecked (t : FBTrie) (query : List Char) (k : Nat) :
    Option (List (List Char × Nat)) :=
  let n := query.length
  let q1 := query.take (n / 2)
  let q2 := query.drop (n / 2)
  match trieFuzzyChecked t.f (fbK1 k) k q1 query,
      trieFuzzyChecked t.b (fbK2 k) k q2.reverse query.reverse with
  | some ra, some rb => some (ra ++ rb.map (fun p => (p.1.reverse, p.2)))
  | _, _ => none

/-- C8: totality and boundary safety.  Both engines, embedded with every
table and query access bounds-checked (`none` = Python `IndexError`),
return `some` of the unchecked result on every dictionary (including words
longer than the query plus `k`), every query and every budget: the depth
cutoff at the table's row capacity keeps all accesses in range, and the
walks always terminate. -/
theorem c8_no_out_of_range (ws : List (List Char)) (q : List Char) (k : Nat) :
    Trie.fuzzyChecked (buildTrie ws) q k =
      some (Trie.fuzzy (buildTrie ws) q k) ∧
    FBTrie.fuzzyChecked (buildFB ws) q k =
      some (FBTrie.fuzzy (buildFB ws) q k) := by
  constructor
  · simp only [Trie.fuzzyChecked, Trie.fuzzy, Option.getD]
    exact fuzzyGoC_eq _ q false (q.length + k) _ 1 [] _ (by simp)
  · simp only [FBTrie.fuzzyChecked, FBTrie.fuzzy, trieFuzzyChecked, trieFuzzy]
    rw [fbGoC_eq (k : Int) (q.take (q.length / 2)) q
      (by rw [List.length_take]; omega) (q.length + k) (fbK1 k) _ 1 [] _ 1
      (by simp)]
    rw [fbGoC_eq (k : Int) (q.drop (q.length / 2)).reverse q.reverse
      (by rw [List.length_reverse, List.length_drop, List.length_reverse]; omega)
      (q.reverse.length + k) (fbK2 k) _ 1 [] _ 1 (by simp)]

/-- C5 witness: at `k = 3` the two half budgets evaluate to 1 = (3-1)/2
and 1 = 3/2. -/
theorem c5_amended_witness :
    fbK2 3 = ((3 / 2 : Nat) : Int) ∧ fbK1 3 = (((3 - 1) / 2 : Nat) : Int) :=
  ⟨c5_amended.1 3, c5_amended.2.1 3 (by decide)⟩
